import Mathlib

/-
  Verification development for the postcss-mixins macro-expansion engine
  (src/index.js).  Strings are modelled as `List Char`; the node tree is a
  mutual inductive `Node`/`NodeList` mirroring the postcss AST fragment the
  engine manipulates (declarations, rules, at-rules).  Machinery that the
  engine consumes from external collaborators (the postcss comma splitter,
  the postcss-simple-vars substitution pass, the visitor walk that re-scans
  inserted nodes) is modelled from the specification of those interfaces;
  each such definition is marked `Modelled from the spec:` in its doc
  comment.  Everything else is translated directly from src/index.js.
-/

namespace PostcssMixins

abbrev Str := List Char

/-- The double-quote character. -/
def dq : Char := Char.ofNat 34

/-- The single-quote character. -/
def sq : Char := Char.ofNat 39

/-- The backslash character. -/
def bsl : Char := Char.ofNat 92

def isQuoteChar (c : Char) : Bool := c = dq || c = sq

/-- JavaScript `String.prototype.trim` on our character-list strings. -/
def trim (s : Str) : Str :=
  ((s.dropWhile Char.isWhitespace).reverse.dropWhile Char.isWhitespace).reverse

/-- Characters accepted by the mixin-name pattern `[a-zA-Z_-]` in
`parseMixin` (src/index.js line 14).  Digits are not accepted. -/
def isNameChar (c : Char) : Bool :=
  (('a' ≤ c && c ≤ 'z') || ('A' ≤ c && c ≤ 'Z') || c = '_' || c = '-')

/-- `unwrap` (src/index.js line 26): strip an optional quoting wrapper via
`MAYBE_QUOTED_PATTERN` = `^["']?((?<=["']).+(?=["'])|(?:.+))["']?$`.
Backtracking semantics of the regex on a string `s`:
* `s` empty: no match (the group needs at least one character), keep `s`;
* head of `s` not a quote: the group captures all of `s`, keep `s`;
* head a quote and `s` is just that one character: the optional leading
  quote backtracks to empty and the group captures `s`, keep `s`;
* head a quote, last character also a quote and at least one character
  between them: capture the characters strictly between them;
* head a quote otherwise: the leading quote is consumed and the group
  captures the rest. -/
def unwrap (s : Str) : Str :=
  match s with
  | [] => []
  | c :: rest =>
    if isQuoteChar c then
      match rest with
      | [] => s
      | _ :: _ =>
        match rest.getLast? with
        | some l => if isQuoteChar l ∧ rest.length ≥ 2 then rest.dropLast else rest
        | none => rest
    else s

/-- Modelled from the spec: the host tree library's helper that "splits a
string on top-level commas respecting nesting" (spec section 6), i.e.
postcss `list.comma`.  State: `esc` records a pending backslash escape,
`inQ` the currently open quote character, `func` the parenthesis depth,
`cur` the current token (reversed), `acc` the finished tokens.  A comma at
depth zero outside quotes ends the current token; an empty current token
is dropped mid-string but the final token is always pushed. -/
def splitGo : Str → Bool → Option Char → Nat → Str → List Str → List Str
  | [], _, _, _, cur, acc => acc ++ [trim cur.reverse]
  | c :: rest, esc, inQ, func, cur, acc =>
    if esc then splitGo rest false inQ func (c :: cur) acc
    else if c = bsl then splitGo rest true inQ func (c :: cur) acc
    else
      match inQ with
      | some q =>
        if c = q then splitGo rest false none func (c :: cur) acc
        else splitGo rest false (some q) func (c :: cur) acc
      | none =>
        if isQuoteChar c then splitGo rest false (some c) func (c :: cur) acc
        else if c = '(' then splitGo rest false none (func + 1) (c :: cur) acc
        else if c = ')' then splitGo rest false none (func - 1) (c :: cur) acc
        else if func = 0 ∧ c = ',' then
          splitGo rest false none 0 []
            (if cur ≠ [] then acc ++ [trim cur.reverse] else acc)
        else splitGo rest false none func (c :: cur) acc

/-- Modelled from the spec: postcss `list.comma` (spec section 6). -/
def commaSplit (s : Str) : List Str := splitGo s false none 0 [] []

/-- Error kinds raised by the engine (spec section 7).  `stackOverflow`
stands for the host call-stack exhaustion reached by unbounded recursive
self-invocation, which the source does not guard against. -/
inductive ErrKind where
  | malformedDefinition
  | undefinedMacro
  | invalidMacroType
  | unbalancedSingleArg
  | stackOverflow
deriving DecidableEq

/-- An error raised by the engine.  `pos` is the source position carried by
`node.error(...)` constructed errors; the `InvalidMacroType` error is built
with a bare `new Error(...)` (src/index.js line 237) and carries none. -/
structure MixinError where
  kind : ErrKind
  pos : Option Nat
  msg : Str
deriving DecidableEq

/-- Message of the malformed-definition error
`Invalid mixin definition: ${rule.toString()}` (src/index.js line 18); the
serialization of the offending at-rule is modelled as
`"@" ++ name ++ " " ++ params` (body braces omitted). -/
def mixinHeaderError (atName : Str) (pos : Nat) (ruleParams : Str) : MixinError :=
  ⟨.malformedDefinition, some pos,
    "Invalid mixin definition: @".data ++ atName ++ " ".data ++ ruleParams⟩

/-- Companion to `parseMixin`: the behaviour of the header regex
`^(?<name>[a-zA-Z_-]+).?(?<paramString>(?:(?<=\()...(?=\))|(?<=\s)...))?.?$`
on the text that follows the (maximal) name.  Returns `none` when the whole
regex fails to match, `some none` when it matches with no `paramString`
group, and `some (some s)` when the group captures `s`.  Derivation from
the regex, where the char after the name is `c` and the text after that is
`rest`:
* at most one leftover character is absorbed by `.?`/`.?$` with the group
  absent;
* `c = '('` activates the look-behind-`(` alternative: the group captures
  everything up to a final `)`;
* `c` whitespace activates the look-behind-whitespace alternative: the
  group greedily captures the whole remainder;
* backtracking into the name never helps, because the character following
  a shortened name is a name character, which satisfies neither
  look-behind. -/
def parseParamTail : Str → Option (Option Str)
  | [] => some none
  | [_] => some none
  | c :: rest =>
    if c = '(' then
      if rest.getLast? = some ')' ∧ rest.dropLast ≠ [] then some (some rest.dropLast)
      else if rest.length ≤ 1 then some none
      else none
    else if c.isWhitespace then some (some rest)
    else if rest.length ≤ 1 then some none
    else none

/-- `parseMixin` (src/index.js lines 11-24): extract the mixin name and the
raw parameter string from an at-rule's params, failing with the
malformed-definition error when the header regex does not match.  `atName`
is the at-rule's own name (`mixin`, `include` or `add-mixin`), used only in
the error message; `pos` is the node's source position. -/
def parseMixin (atName : Str) (pos : Nat) (ruleParams : Str) :
    Except MixinError (Str × Str) :=
  let name := ruleParams.takeWhile isNameChar
  if name = [] then .error (mixinHeaderError atName pos ruleParams)
  else
    match parseParamTail (ruleParams.drop name.length) with
    | none => .error (mixinHeaderError atName pos ruleParams)
    | some o => .ok (name, trim (o.getD []))

/-- Tokenising one formal-parameter token in `addMixin`
(src/index.js lines 33-40): `arg = str.split(':', 1)[0]`,
`defaults = unwrap(str.slice(arg.length + 1).trim())`,
`arg = arg.slice(1).trim()`. -/
def parseFormal (tok : Str) : Str × Str :=
  let arg0 := tok.takeWhile (fun c => c ≠ ':')
  (trim (arg0.drop 1), unwrap (trim (tok.drop (arg0.length + 1))))

/- The postcss node-tree fragment the engine manipulates: declarations
(`prop: value`), rules (`selector { ... }`) and at-rules
(`@name params { ... }`).  At-rules carry the source position used by
`node.error(...)`.  `NodeList` is the list of children, mutual with `Node`
so that all tree-walking functions are structural. -/
mutual
inductive Node where
  | decl (prop value : Str)
  | rule (selector : Str) (nodes : NodeList)
  | atrule (name params : Str) (pos : Nat) (nodes : NodeList)
inductive NodeList where
  | nil
  | cons (head : Node) (tail : NodeList)
end

def NodeList.append : NodeList → NodeList → NodeList
  | .nil, ys => ys
  | .cons x xs, ys => .cons x (xs.append ys)

/-- A registered mixin record.  `css` is a tree-fragment mixin as stored by
`addMixin` (formal parameters with defaults, content flag, body);
`foreign` is a registered value that is neither an at-rule node, an
object, nor a function (for example a number), carrying its JavaScript
`typeof` descriptor.  Object- and function-bodied mixins are handled by
external collaborators (postcss-js and the caller's code) and are outside
the modelled fragment. -/
inductive MixinDef where
  | css (args : List (Str × Str)) (content : Bool) (body : NodeList)
  | foreign (typeName : Str)

/-- The mixin registry: name-to-record mapping where a later registration
for a name shadows an earlier one (modelled by prepending and first-match
lookup). -/
abbrev Registry := List (Str × MixinDef)

def lookupMixin : Registry → Str → Option MixinDef
  | [], _ => none
  | (n, d) :: rest, name => if n = name then some d else lookupMixin rest name

/-- Plugin options relevant to the engine (spec section 6): `silent`
tolerates undefined invocations by deleting them. -/
structure Opts where
  silent : Bool

/- `rule.walkAtRules('mixin-content', ...)` detection in `addMixin`
(src/index.js lines 43-47): does the body contain a `@mixin-content`
at-rule at any depth? -/
mutual
def Node.hasMixinContent : Node → Bool
  | .decl _ _ => false
  | .rule _ ch => ch.hasMixinContent
  | .atrule n _ _ ch => n = "mixin-content".data || ch.hasMixinContent
def NodeList.hasMixinContent : NodeList → Bool
  | .nil => false
  | .cons n rest => n.hasMixinContent || rest.hasMixinContent
end

/- `processMixinContent` (src/index.js lines 126-134): walk the expanded
body; every `@mixin-content` at-rule found at any depth is replaced by
clones of the invocation site's children when there are any, and removed
outright otherwise.  In this value model both cases amount to splicing
`content` (the invocation's child list) in place of the marker; each
marker receives the full `content`, independently of the others.  The
walk does not descend into the spliced copies themselves. -/
mutual
def Node.injectContent (content : NodeList) : Node → NodeList
  | .decl p v => .cons (.decl p v) .nil
  | .rule s ch => .cons (.rule s (NodeList.injectContent content ch)) .nil
  | .atrule n p pos ch =>
    if n = "mixin-content".data then content
    else .cons (.atrule n p pos (NodeList.injectContent content ch)) .nil
def NodeList.injectContent (content : NodeList) : NodeList → NodeList
  | .nil => .nil
  | .cons n rest =>
    (Node.injectContent content n).append (NodeList.injectContent content rest)
end

/-- `processMixinContent(rule, from)` with `rule` the expanded body and
`from` the invocation site; `content` is the invocation site's child
list. -/
def processMixinContent (content : NodeList) (body : NodeList) : NodeList :=
  NodeList.injectContent content body

/-- `value.includes(sub)`: substring containment. -/
def containsSub (s sub : Str) : Bool :=
  sub.isPrefixOf s ||
    match s with
    | [] => false
    | _ :: rest => containsSub rest sub

/-- JavaScript `String.prototype.replace` with a string pattern: replace
only the first occurrence of `key` in `s` by `val` (an empty `key` matches
at the start). -/
def replaceFirst (s key val : Str) : Str :=
  if key.isPrefixOf s then val ++ s.drop key.length
  else
    match s with
    | [] => []
    | c :: rest => c :: replaceFirst rest key val

/-- The loop over the single-arguments map in `unwrapSingleArguments`
(src/index.js lines 154-157): one first-occurrence replacement per map
entry, in insertion order. -/
def replaceEntries (m : List (Str × Str)) (v : Str) : Str :=
  m.foldl (fun acc kv => replaceFirst acc kv.1 kv.2) v

/- `unwrapSingleArguments` (src/index.js lines 146-164): rewrite
declaration values containing the text `single-arg` using the
single-arguments map, recursing only into nodes of type `rule`; other
nodes (in particular at-rules) are left untouched. -/
mutual
def Node.unwrapSingle (m : List (Str × Str)) : Node → Node
  | .decl p v =>
    if containsSub v "single-arg".data then .decl p (replaceEntries m v) else .decl p v
  | .rule s ch => .rule s (ch.unwrapSingle m)
  | .atrule n p pos ch => .atrule n p pos ch
def NodeList.unwrapSingle (m : List (Str × Str)) : NodeList → NodeList
  | .nil => .nil
  | .cons n rest => .cons (n.unwrapSingle m) (rest.unwrapSingle m)
end

/-- `unwrapSingleArguments(rules, singleArgumentsMap)` including the
initial size guard (src/index.js lines 147-149). -/
def unwrapSingleArguments (m : List (Str × Str)) (rules : NodeList) : NodeList :=
  if m.length = 0 then rules else rules.unwrapSingle m

/-- `resolveSingleArgumentValue` (src/index.js lines 166-176): strip the
`single-arg` marker, trim, require the remainder to be parenthesized, and
return the text strictly between the outer parentheses. -/
def resolveSingleArgumentValue (pos : Nat) (value : Str) : Except MixinError Str :=
  let content := trim (value.drop ("single-arg".data.length))
  if ['('].isPrefixOf content ∧ [')'].isSuffixOf content then
    .ok ((content.drop 1).dropLast)
  else
    .error ⟨.unbalancedSingleArg, some pos,
      "Content of single-arg must be wrapped in brackets: ".data ++ value⟩

/-- Resolution of all marker-bearing actual-argument tokens, in order;
the first failure aborts (src/index.js lines 190-194). -/
def resolvePairs (pos : Nat) : List Str → Except MixinError (List (Str × Str))
  | [] => .ok []
  | p :: rest =>
    match resolveSingleArgumentValue pos p with
    | .error e => .error e
    | .ok v =>
      match resolvePairs pos rest with
      | .error e => .error e
      | .ok r => .ok ((p, v) :: r)

/-- JavaScript `Map.prototype.set`: a pair with an already-present key
overwrites the value but keeps the original insertion position; a new key
is appended. -/
def mapInsert : List (Str × Str) → Str → Str → List (Str × Str)
  | [], k, v => [(k, v)]
  | (k2, v2) :: rest, k, v =>
    if k2 = k then (k, v) :: rest else (k2, v2) :: mapInsert rest k v

def buildMap (pairs : List (Str × Str)) : List (Str × Str) :=
  pairs.foldl (fun m kv => mapInsert m kv.1 kv.2) []

/-- `new Map(params.filter(p => p.startsWith('single-arg')).map(...))`
(src/index.js lines 190-194). -/
def buildSingleArgMap (pos : Nat) (params : List Str) :
    Except MixinError (List (Str × Str)) :=
  match resolvePairs pos (params.filter (fun p => ("single-arg".data).isPrefixOf p)) with
  | .error e => .error e
  | .ok pairs => .ok (buildMap pairs)

/-- The parameter-binding loop of `insertMixin` (src/index.js lines
201-205): `values[meta.args[i][0]] = params[i] || meta.args[i][1]`.  The
JavaScript `||` falls back to the declared default both when the actual at
index `i` is missing and when it is the (falsy) empty string. -/
def bindValues : List (Str × Str) → List Str → List (Str × Str)
  | [], _ => []
  | (a, d) :: rest, [] => (a, d) :: bindValues rest []
  | (a, d) :: rest, p :: ps => (a, if p ≠ [] then p else d) :: bindValues rest ps

/-- Lookup in the JavaScript `values` object: for duplicate formal names
the last assignment wins. -/
def lookupVar (values : List (Str × Str)) (name : Str) : Option Str :=
  match values with
  | [] => none
  | (k, v) :: rest =>
    match lookupVar rest name with
    | some r => some r
    | none => if k = name then some v else none

/-- Characters of a variable name recognised by the substitution pass. -/
def isVarChar (c : Char) : Bool := c.isAlphanum || c = '_' || c = '-'

/-- Modelled from the spec: one string under the external collaborator's
"substitute named variables" transform (spec section 6, postcss-simple-vars
with `only: values`): each `$name` whose (maximal, nonempty) name is bound
in `values` is replaced by its value; unknown variables are left verbatim;
replacements are not rescanned.  Structural on an explicit character
budget so that the definition computes by kernel reduction; the budget is
initialised to the string length, which the scan never exceeds. -/
def substStrGo (values : List (Str × Str)) : Nat → Str → Str
  | 0, s => s
  | _ + 1, [] => []
  | fuel + 1, c :: rest =>
    if c = '$' then
      let name := rest.takeWhile isVarChar
      match lookupVar values name with
      | some v =>
        if name ≠ [] then v ++ substStrGo values fuel (rest.drop name.length)
        else c :: substStrGo values fuel rest
      | none => c :: substStrGo values fuel rest
    else c :: substStrGo values fuel rest

def substStr (values : List (Str × Str)) (s : Str) : Str :=
  substStrGo values s.length s

/- Modelled from the spec: the "substitute named variables" transform run
over the cloned body (src/index.js line 215 hands the proxy to
postcss-simple-vars), rewriting declaration properties and values, rule
selectors and at-rule params throughout the fragment. -/
mutual
def Node.substVars (values : List (Str × Str)) : Node → Node
  | .decl p v => .decl (substStr values p) (substStr values v)
  | .rule s ch => .rule (substStr values s) (ch.substVars values)
  | .atrule n p pos ch => .atrule n (substStr values p) pos (ch.substVars values)
def NodeList.substVars (values : List (Str × Str)) : NodeList → NodeList
  | .nil => .nil
  | .cons n rest => .cons (n.substVars values) (rest.substVars values)
end


/-- The actual-argument list of an invocation (src/index.js lines 181-186):
empty when the trimmed parameter string is empty, otherwise the comma
split with each token unwrapped of optional quotes. -/
def actualParams (paramString : Str) : List Str :=
  if trim paramString = [] then [] else (commaSplit paramString).map unwrap

/-- `addMixin` (src/index.js lines 28-52): parse the definition header,
tokenise the formal parameters, detect a content placeholder, and register
the record under its name (overwriting any earlier record).  The `file`
tagging of externally loaded definitions is not needed by any claim and is
not modelled. -/
def addMixin (mixins : Registry) (atName : Str) (pos : Nat) (ruleParams : Str)
    (body : NodeList) : Except MixinError Registry :=
  match parseMixin atName pos ruleParams with
  | .error e => .error e
  | .ok np =>
    let args := if np.2.length ≠ 0 then (commaSplit np.2).map parseFormal else []
    .ok ((np.1, .css args body.hasMixinContent body) :: mixins)

/-- `insertMixin` (src/index.js lines 178-241) restricted to the modelled
registry forms, returning the node list spliced in place of the invocation
site (the site itself is removed).  Steps, in source order: parse the
header; tokenise actuals; build the single-arguments map (this happens
before the registry check, so a malformed `single-arg` token aborts even
for unknown names and even under `silent`); then dispatch on the record:
unknown name → `UndefinedMacro` unless `silent` (which yields no output);
tree-fragment record → bind parameters, substitute when the formal list is
nonempty, inject content when the record has a placeholder, apply the
single-argument replacement pass; foreign record → `InvalidMacroType`
built with no source position.  Cloning is the identity in this value
model; the `delete node.raws.before` formatting tweak is not modelled. -/
def insertMixin (mixins : Registry) (opts : Opts) (atName : Str) (pos : Nat)
    (ruleParams : Str) (ruleNodes : NodeList) : Except MixinError NodeList :=
  match parseMixin atName pos ruleParams with
  | .error e => .error e
  | .ok np =>
    let params := actualParams np.2
    match buildSingleArgMap pos params with
    | .error e => .error e
    | .ok sam =>
      match lookupMixin mixins np.1 with
      | none =>
        if opts.silent then .ok .nil
        else .error ⟨.undefinedMacro, some pos, "Undefined mixin ".data ++ np.1⟩
      | some (.css args content body) =>
        let values := bindValues args params
        let proxy := if args.length ≠ 0 then body.substVars values else body
        let proxy := if content then processMixinContent ruleNodes proxy else proxy
        .ok (unwrapSingleArguments sam proxy)
      | some (.foreign typeName) =>
        .error ⟨.invalidMacroType, none,
          "Wrong ".data ++ np.1 ++ " mixin type ".data ++ typeName⟩

/-- Modelled from the spec: the host visitor walk driving the engine
(spec sections 2 and 4.4): nodes are visited in document order; a `@mixin`
at-rule is registered and removed; an `@include`/`@add-mixin` at-rule is
replaced by its expansion, and the newly inserted nodes are themselves
scanned for invocation sites before the walk continues; other containers
are walked recursively.  The walk threads the registry left to right.
`fuel` bounds the number of walk steps, standing for the host call stack:
there is no cycle detection, and a self-invoking macro exhausts it. -/
def processNodes (opts : Opts) : Nat → Registry → NodeList →
    Except MixinError (Registry × NodeList)
  | 0, _, _ => .error ⟨.stackOverflow, none, "Maximum call stack size exceeded".data⟩
  | _ + 1, mixins, .nil => .ok (mixins, .nil)
  | fuel + 1, mixins, .cons n rest =>
    match n with
    | .decl p v =>
      match processNodes opts fuel mixins rest with
      | .error e => .error e
      | .ok (m, r) => .ok (m, .cons (.decl p v) r)
    | .rule s ch =>
      match processNodes opts fuel mixins ch with
      | .error e => .error e
      | .ok (m, ch2) =>
        match processNodes opts fuel m rest with
        | .error e => .error e
        | .ok (m2, r) => .ok (m2, .cons (.rule s ch2) r)
    | .atrule aname aparams pos ch =>
      if aname = "mixin".data then
        match addMixin mixins aname pos aparams ch with
        | .error e => .error e
        | .ok m => processNodes opts fuel m rest
      else if aname = "include".data ∨ aname = "add-mixin".data then
        match insertMixin mixins opts aname pos aparams ch with
        | .error e => .error e
        | .ok inserted => processNodes opts fuel mixins (inserted.append rest)
      else
        match processNodes opts fuel mixins ch with
        | .error e => .error e
        | .ok (m, ch2) =>
          match processNodes opts fuel m rest with
          | .error e => .error e
          | .ok (m2, r) => .ok (m2, .cons (.atrule aname aparams pos ch2) r)

/-- One whole processing run over a document, discarding the final
registry: the tree that the run produces. -/
def expandDoc (opts : Opts) (fuel : Nat) (mixins : Registry) (doc : NodeList) :
    Except MixinError NodeList :=
  (processNodes opts fuel mixins doc).map (fun r => r.2)

/-- Modelled from the spec: the spec's own wording of positional binding
(claim C1), kept separate for refinement comparison with `bindValues`:
"for index i, the bound value is `actuals[i]` if present else the formal's
declared default".  Presence here means the index exists, regardless of the
value being empty. -/
def specBindValues : List (Str × Str) → List Str → List (Str × Str)
  | [], _ => []
  | (a, d) :: rest, [] => (a, d) :: specBindValues rest []
  | (a, _) :: rest, p :: ps => (a, p) :: specBindValues rest ps

/-- `Map.prototype.get`: first-match lookup in the insertion-ordered
single-arguments map. -/
def mapGet (m : List (Str × Str)) (k : Str) : Option Str :=
  match m with
  | [] => none
  | (k2, v) :: rest => if k2 = k then some v else mapGet rest k

/- Absence of invocation sites (`@include` / `@add-mixin` at-rules) at any
depth of a tree, the postcondition of a successful run. -/
mutual
def Node.noInvocation : Node → Bool
  | .decl _ _ => true
  | .rule _ ch => ch.noInvocation
  | .atrule n _ _ ch =>
    !(n = "include".data || n = "add-mixin".data) && ch.noInvocation
def NodeList.noInvocation : NodeList → Bool
  | .nil => true
  | .cons n rest => n.noInvocation && rest.noInvocation
end

/-- Helper for writing concrete documents. -/
def nodes (l : List Node) : NodeList := l.foldr .cons .nil

/-- The inner text a well-formed single-arg token resolves to: the text
strictly between the outer parentheses of the trimmed region after the
marker word. -/
def singleArgInner (p : Str) : Str :=
  ((trim (p.drop ("single-arg".data.length))).drop 1).dropLast

/- ------------------------------------------------------------------ -/
/- Theorems.                                                           -/
/- ------------------------------------------------------------------ -/

theorem NodeList.append_assoc (xs ys zs : NodeList) :
    NodeList.append (NodeList.append xs ys) zs
      = NodeList.append xs (NodeList.append ys zs) :=
  match xs with
  | .nil => rfl
  | .cons n rest => congrArg (NodeList.cons n) (NodeList.append_assoc rest ys zs)

mutual
theorem Node.injectContent_skips_free (c : NodeList) (n : Node)
    (h : n.hasMixinContent = false) :
    Node.injectContent c n = .cons n .nil := by
  match n with
  | .decl p v => rfl
  | .rule s ch =>
    simp only [Node.hasMixinContent] at h
    simp only [Node.injectContent, NodeList.injectContent_fixes_free c ch h]
  | .atrule nm p pos ch =>
    simp only [Node.hasMixinContent, Bool.or_eq_false_iff,
      decide_eq_false_iff_not] at h
    simp only [Node.injectContent, if_neg h.1,
      NodeList.injectContent_fixes_free c ch h.2]
theorem NodeList.injectContent_fixes_free (c : NodeList) (ns : NodeList)
    (h : ns.hasMixinContent = false) :
    NodeList.injectContent c ns = ns := by
  match ns with
  | .nil => rfl
  | .cons n rest =>
    simp only [NodeList.hasMixinContent, Bool.or_eq_false_iff] at h
    simp only [NodeList.injectContent, Node.injectContent_skips_free c n h.1,
      NodeList.injectContent_fixes_free c rest h.2, NodeList.append]
end

theorem NodeList.injectContent_append (c xs ys : NodeList) :
    NodeList.injectContent c (NodeList.append xs ys)
      = NodeList.append (NodeList.injectContent c xs)
        (NodeList.injectContent c ys) := by
  match xs with
  | .nil => rfl
  | .cons n rest =>
    simp only [NodeList.append, NodeList.injectContent,
      NodeList.injectContent_append c rest ys, NodeList.append_assoc]

theorem NodeList.injectContent_placeholder (c : NodeList) (p : Str)
    (pos : Nat) (ch rest : NodeList) :
    NodeList.injectContent c (.cons (.atrule "mixin-content".data p pos ch) rest)
      = NodeList.append c (NodeList.injectContent c rest) := by
  simp only [NodeList.injectContent, Node.injectContent, if_pos rfl, ite_true]

/-- C7: injecting empty nested content (an invocation with no child nodes)
into a body with one content placeholder yields the body with the
placeholder at-rule removed and every other node unchanged. -/
theorem claim_C7_content_empty (pre post : NodeList) (p : Str) (pos : Nat)
    (ch : NodeList) (hpre : pre.hasMixinContent = false)
    (hpost : post.hasMixinContent = false) :
    processMixinContent .nil
      (NodeList.append pre (.cons (.atrule "mixin-content".data p pos ch) post))
      = NodeList.append pre post := by
  rw [processMixinContent, NodeList.injectContent_append,
    NodeList.injectContent_fixes_free _ _ hpre,
    NodeList.injectContent_placeholder,
    NodeList.injectContent_fixes_free _ _ hpost]
  rfl

/-- Witness for C7 at a concrete body `a: 1; @mixin-content;` with empty
content: the result is `a: 1;` alone. -/
theorem claim_C7_content_empty_witness :
    processMixinContent .nil
      (NodeList.append (.cons (.decl "a".data "1".data) .nil)
        (.cons (.atrule "mixin-content".data [] 5 .nil) .nil))
      = NodeList.append (.cons (.decl "a".data "1".data) .nil) .nil :=
  claim_C7_content_empty (.cons (.decl "a".data "1".data) .nil) .nil [] 5 .nil
    rfl rfl

/-- C6: a body with two content placeholders and an invocation carrying
nested content receives an independent full copy of that content at each
placeholder; the source content is not consumed by the first
replacement.  In particular one content child yields two copies. -/
theorem claim_C6_content_clone (c : Node) (pre mid post : NodeList)
    (p1 p2 : Str) (pos1 pos2 : Nat) (ch1 ch2 : NodeList)
    (_hc : c.hasMixinContent = false)
    (hpre : pre.hasMixinContent = false) (hmid : mid.hasMixinContent = false)
    (hpost : post.hasMixinContent = false) :
    processMixinContent (.cons c .nil)
      (NodeList.append pre
        (.cons (.atrule "mixin-content".data p1 pos1 ch1)
          (NodeList.append mid
            (.cons (.atrule "mixin-content".data p2 pos2 ch2) post))))
      = NodeList.append pre
          (.cons c (NodeList.append mid (.cons c post))) := by
  rw [processMixinContent, NodeList.injectContent_append,
    NodeList.injectContent_fixes_free _ _ hpre,
    NodeList.injectContent_placeholder,
    NodeList.injectContent_append,
    NodeList.injectContent_fixes_free _ _ hmid,
    NodeList.injectContent_placeholder,
    NodeList.injectContent_fixes_free _ _ hpost]
  rfl

/-- Witness for C6 at the spec's verification scenario: a body of exactly
two placeholders and content `a: 1` produce `a: 1; a: 1;`. -/
theorem claim_C6_content_clone_witness :
    processMixinContent (.cons (.decl "a".data "1".data) .nil)
      (NodeList.append .nil
        (.cons (.atrule "mixin-content".data [] 5 .nil)
          (NodeList.append .nil
            (.cons (.atrule "mixin-content".data [] 6 .nil) .nil))))
      = NodeList.append .nil
          (.cons (.decl "a".data "1".data)
            (NodeList.append .nil (.cons (.decl "a".data "1".data) .nil))) :=
  claim_C6_content_clone (.decl "a".data "1".data) .nil .nil .nil [] [] 5 6
    .nil .nil rfl rfl rfl rfl

theorem resolveSAV_ok_shape (pos : Nat) (p v : Str)
    (h : resolveSingleArgumentValue pos p = .ok v) : v = singleArgInner p := by
  rw [resolveSingleArgumentValue] at h
  split at h
  · exact (Except.ok.inj h).symm
  · exact absurd h (by simp)

theorem mapGet_insert_self (m : List (Str × Str)) (k v : Str) :
    mapGet (mapInsert m k v) k = some v := by
  induction m with
  | nil => simp [mapInsert, mapGet]
  | cons kv rest ih =>
    obtain ⟨k2, v2⟩ := kv
    by_cases hk : k2 = k
    · simp [mapInsert, hk, mapGet]
    · simp [mapInsert, hk, mapGet, ih]

theorem mapGet_insert_other (m : List (Str × Str)) (k k2 v : Str)
    (h : k2 ≠ k) : mapGet (mapInsert m k2 v) k = mapGet m k := by
  induction m with
  | nil => simp [mapInsert, mapGet, h]
  | cons kv rest ih =>
    obtain ⟨k3, v3⟩ := kv
    by_cases hk : k3 = k2
    · subst hk
      simp [mapInsert, mapGet, h, ih]
    · simp [mapInsert, hk, mapGet, ih]

theorem buildMap_get_aux (k v : Str) :
    ∀ (pairs acc : List (Str × Str)),
      (mapGet acc k = some v ∨ (k, v) ∈ pairs) →
      (∀ v2, (k, v2) ∈ pairs → v2 = v) →
      mapGet (List.foldl (fun m kv => mapInsert m kv.1 kv.2) acc pairs) k = some v := by
  intro pairs
  induction pairs with
  | nil =>
    intro acc hin _
    rcases hin with hacc | hmem
    · simpa using hacc
    · simp at hmem
  | cons kv rest ih =>
    intro acc hin hfun
    obtain ⟨k2, v2⟩ := kv
    rw [List.foldl_cons]
    by_cases hk : k2 = k
    · subst hk
      have hv2 : v2 = v := hfun v2 (by simp)
      subst hv2
      exact ih (mapInsert acc k2 v2) (Or.inl (mapGet_insert_self acc k2 v2))
        (fun v3 h3 => hfun v3 (List.mem_cons_of_mem _ h3))
    · refine ih (mapInsert acc k2 v2) ?_ (fun v3 h3 => hfun v3 (List.mem_cons_of_mem _ h3))
      rcases hin with hacc | hmem
      · exact Or.inl (by rw [mapGet_insert_other acc k k2 v2 hk]; exact hacc)
      · rcases List.mem_cons.mp hmem with heq | hmem2
        · exact absurd (congrArg Prod.fst heq).symm hk
        · exact Or.inr hmem2

theorem resolvePairs_ok_mem (pos : Nat) :
    ∀ (l : List Str) (pairs : List (Str × Str)),
      resolvePairs pos l = .ok pairs →
      ∀ p ∈ l, (p, singleArgInner p) ∈ pairs := by
  intro l
  induction l with
  | nil =>
    intro pairs h p hp
    simp at hp
  | cons p0 rest ih =>
    intro pairs h p hp
    rw [resolvePairs] at h
    cases hres : resolveSingleArgumentValue pos p0 with
    | error e => rw [hres] at h; exact absurd h (by simp)
    | ok v =>
      rw [hres] at h
      cases hrest : resolvePairs pos rest with
      | error e => rw [hrest] at h; exact absurd h (by simp)
      | ok r =>
        rw [hrest] at h
        have hpairs : pairs = (p0, v) :: r := (Except.ok.inj h).symm
        subst hpairs
        rcases List.mem_cons.mp hp with heq | hmem
        · subst heq
          have : v = singleArgInner p := resolveSAV_ok_shape pos p v hres
          subst this
          simp
        · exact List.mem_cons_of_mem _ (ih r hrest p hmem)

theorem resolvePairs_ok_val (pos : Nat) :
    ∀ (l : List Str) (pairs : List (Str × Str)),
      resolvePairs pos l = .ok pairs →
      ∀ k v2, (k, v2) ∈ pairs → v2 = singleArgInner k := by
  intro l
  induction l with
  | nil =>
    intro pairs h k v2 hmem
    rw [resolvePairs] at h
    have : pairs = [] := (Except.ok.inj h).symm
    subst this
    simp at hmem
  | cons p0 rest ih =>
    intro pairs h k v2 hmem
    rw [resolvePairs] at h
    cases hres : resolveSingleArgumentValue pos p0 with
    | error e => rw [hres] at h; exact absurd h (by simp)
    | ok v =>
      rw [hres] at h
      cases hrest : resolvePairs pos rest with
      | error e => rw [hrest] at h; exact absurd h (by simp)
      | ok r =>
        rw [hrest] at h
        have hpairs : pairs = (p0, v) :: r := (Except.ok.inj h).symm
        subst hpairs
        rcases List.mem_cons.mp hmem with heq | hmem2
        · have hk : k = p0 := congrArg Prod.fst heq
          have hv : v2 = v := congrArg Prod.snd heq
          subst hk
          subst hv
          exact resolveSAV_ok_shape pos k v2 hres
        · exact ih r hrest k v2 hmem2

theorem buildSingleArgMap_get (pos : Nat) (params : List Str)
    (m : List (Str × Str)) (p : Str)
    (h : buildSingleArgMap pos params = .ok m) (hp : p ∈ params)
    (hpre : ("single-arg".data).isPrefixOf p = true) :
    mapGet m p = some (singleArgInner p) := by
  rw [buildSingleArgMap] at h
  cases hres : resolvePairs pos (params.filter (fun q => ("single-arg".data).isPrefixOf q)) with
  | error e => rw [hres] at h; exact absurd h (by simp)
  | ok pairs =>
    rw [hres] at h
    have hm : m = buildMap pairs := (Except.ok.inj h).symm
    subst hm
    have hpf : p ∈ params.filter (fun q => ("single-arg".data).isPrefixOf q) :=
      List.mem_filter.mpr ⟨hp, hpre⟩
    exact buildMap_get_aux p (singleArgInner p) pairs []
      (Or.inr (resolvePairs_ok_mem pos _ pairs hres p hpf))
      (fun v2 h2 => resolvePairs_ok_val pos _ pairs hres p v2 h2)

/-- C4: for every actual-argument token beginning with the single-arg
marker word, resolution fails with `UnbalancedSingleArg` when the trimmed
remainder after the marker is not wrapped in parentheses; otherwise it
yields exactly the text between the outer parentheses, and the
single-arguments map sends the original complete token text to that inner
text. -/
theorem claim_C4_single_arg_resolution :
    (∀ (pos : Nat) (value : Str),
      ("single-arg".data).isPrefixOf value = true →
      ((¬ (['('].isPrefixOf (trim (value.drop ("single-arg".data.length)))
            ∧ [')'].isSuffixOf (trim (value.drop ("single-arg".data.length)))) →
        resolveSingleArgumentValue pos value =
          .error ⟨.unbalancedSingleArg, some pos,
            "Content of single-arg must be wrapped in brackets: ".data ++ value⟩)
       ∧ ((['('].isPrefixOf (trim (value.drop ("single-arg".data.length)))
            ∧ [')'].isSuffixOf (trim (value.drop ("single-arg".data.length)))) →
        resolveSingleArgumentValue pos value = .ok (singleArgInner value))))
    ∧ (∀ (pos : Nat) (params : List Str) (m : List (Str × Str)) (p : Str),
        buildSingleArgMap pos params = .ok m → p ∈ params →
        ("single-arg".data).isPrefixOf p = true →
        mapGet m p = some (singleArgInner p)) := by
  constructor
  · intro pos value _
    constructor
    · intro hno
      rw [resolveSingleArgumentValue, if_neg hno]
    · intro hyes
      rw [resolveSingleArgumentValue, if_pos hyes]
      rfl
  · exact fun pos params m p => buildSingleArgMap_get pos params m p

/-- Witness for C4 at the token `single-arg(1, 2)` (well-formed, resolves
to `1, 2`) and at the malformed token `single-arg 1`. -/
theorem claim_C4_single_arg_resolution_witness :
    resolveSingleArgumentValue 2 "single-arg(1, 2)".data =
      .ok (singleArgInner "single-arg(1, 2)".data)
    ∧ resolveSingleArgumentValue 2 "single-arg 1".data =
      .error ⟨.unbalancedSingleArg, some 2,
        "Content of single-arg must be wrapped in brackets: ".data
          ++ "single-arg 1".data⟩
    ∧ mapGet (buildMap [("single-arg(1, 2)".data, "1, 2".data)])
        "single-arg(1, 2)".data = some (singleArgInner "single-arg(1, 2)".data) :=
  ⟨(claim_C4_single_arg_resolution.1 2 "single-arg(1, 2)".data (by decide)).2
      (by decide),
   (claim_C4_single_arg_resolution.1 2 "single-arg 1".data (by decide)).1
      (by decide),
   claim_C4_single_arg_resolution.2 2 ["single-arg(1, 2)".data] _
      "single-arg(1, 2)".data rfl (by decide) (by decide)⟩

/-- C10: the single-argument replacement pass rewrites declaration nodes at
the top level of the fragment and recursively inside nodes of type `rule`,
while an at-rule node (and everything inside it) is returned unchanged —
demonstrated non-vacuously on a declaration that is rewritten at top level
but untouched inside an `@media` container. -/
theorem claim_C10_atrule_untouched :
    (∀ (m : List (Str × Str)) (nm p : Str) (pos : Nat) (ch rest : NodeList),
      NodeList.unwrapSingle m (.cons (.atrule nm p pos ch) rest)
        = .cons (.atrule nm p pos ch) (NodeList.unwrapSingle m rest))
    ∧ (∀ (m : List (Str × Str)) (s : Str) (ch rest : NodeList),
      NodeList.unwrapSingle m (.cons (.rule s ch) rest)
        = .cons (.rule s (NodeList.unwrapSingle m ch)) (NodeList.unwrapSingle m rest))
    ∧ unwrapSingleArguments [("single-arg(1, 2)".data, "1, 2".data)]
        (.cons (.decl "a".data "single-arg(1, 2)".data)
          (.cons (.atrule "media".data "screen".data 4
            (.cons (.decl "a".data "single-arg(1, 2)".data) .nil)) .nil))
      = .cons (.decl "a".data "1, 2".data)
          (.cons (.atrule "media".data "screen".data 4
            (.cons (.decl "a".data "single-arg(1, 2)".data) .nil)) .nil)
    ∧ ("1, 2".data : Str) ≠ "single-arg(1, 2)".data :=
  ⟨fun _ _ _ _ _ _ => rfl, fun _ _ _ _ => rfl, rfl, by decide⟩

theorem replaceFirst_of_not_contains (key val : Str) :
    ∀ (s : Str), key ≠ [] → containsSub s key = false → replaceFirst s key val = s := by
  intro s
  induction s with
  | nil =>
    intro hk hc
    rw [containsSub] at hc
    rw [replaceFirst.eq_def, if_neg (by simp_all)]
  | cons c rest ih =>
    intro hk hc
    rw [containsSub, Bool.or_eq_false_iff] at hc
    rw [replaceFirst.eq_def, if_neg (by simp [hc.1])]
    exact congrArg (c :: ·) (ih hk hc.2)

theorem replaceFirst_at_first_occurrence (key val : Str) :
    ∀ (pre suf : Str), key ≠ [] →
      (∀ i, i < pre.length → key.isPrefixOf ((pre ++ key ++ suf).drop i) = false) →
      replaceFirst (pre ++ key ++ suf) key val = pre ++ val ++ suf := by
  intro pre
  induction pre with
  | nil =>
    intro suf _ _
    have hp : key.isPrefixOf (key ++ suf) = true :=
      List.isPrefixOf_iff_prefix.mpr (List.prefix_append key suf)
    simp only [List.nil_append]
    rw [replaceFirst.eq_def, if_pos hp, List.drop_left]
  | cons c pre2 ih =>
    intro suf hk hno
    rw [replaceFirst.eq_def, if_neg (by
      have h0 := hno 0 (by simp)
      simp only [List.drop_zero, List.cons_append, List.append_assoc] at h0
      intro hp
      simp only [List.cons_append, List.append_assoc] at hp
      rw [hp] at h0
      cases h0)]
    have hrest : ∀ i, i < pre2.length →
        key.isPrefixOf ((pre2 ++ key ++ suf).drop i) = false := by
      intro i hi
      have := hno (i + 1) (by simpa using Nat.succ_lt_succ hi)
      simpa using this
    simpa using congrArg (c :: ·) (ih suf hk hrest)

/-- The C5 counterexample: with `@mixin a $x { v: $x $x; }` invoked as
`@include a single-arg(1, 2);`, parameter substitution puts the original
token text into the declaration value twice, but JavaScript
`String.replace` with a string pattern replaces only the first occurrence:
the run succeeds and an occurrence of the original token text survives in
the output, contradicting the claim that every textual occurrence is
replaced. -/
theorem counterexample_C5_partial_replacement :
    expandDoc ⟨false⟩ 20 []
      (nodes [.atrule "mixin".data "a $x".data 1
                (nodes [.decl "v".data "$x $x".data]),
              .atrule "include".data "a single-arg(1, 2)".data 2 .nil])
      = .ok (nodes [.decl "v".data "1, 2 single-arg(1, 2)".data])
    ∧ containsSub "1, 2 single-arg(1, 2)".data "single-arg(1, 2)".data = true :=
  ⟨rfl, rfl⟩

/-- C5 (amended): after parameter substitution, the replacement pass
rewrites, for each entry of the single-arguments map in insertion order,
the first textual occurrence of the original token text inside a
declaration's value string (a value without an occurrence is unchanged),
and this is applied depth-first into nested rule content — shown end to
end on a body whose declaration sits inside a nested rule. -/
theorem claim_C5_first_occurrence_replacement :
    (∀ (s key val : Str), key ≠ [] → containsSub s key = false →
      replaceFirst s key val = s)
    ∧ (∀ (pre suf key val : Str), key ≠ [] →
      (∀ i, i < pre.length → key.isPrefixOf ((pre ++ key ++ suf).drop i) = false) →
      replaceFirst (pre ++ key ++ suf) key val = pre ++ val ++ suf)
    ∧ expandDoc ⟨false⟩ 20 []
        (nodes [.atrule "mixin".data "a $x".data 1
                  (nodes [.rule ".s".data (nodes [.decl "v".data "$x $x".data])]),
                .atrule "include".data "a single-arg(1, 2)".data 2 .nil])
        = .ok (nodes [.rule ".s".data
            (nodes [.decl "v".data "1, 2 single-arg(1, 2)".data])]) :=
  ⟨fun s key val hk hc => replaceFirst_of_not_contains key val s hk hc,
   fun pre suf key val hk hno => replaceFirst_at_first_occurrence key val pre suf hk hno,
   rfl⟩

/-- Witness for C5 (amended) at concrete strings: `ab` does not contain
`cd` and is unchanged; the first of two occurrences of `ab` in `xabab` is
the one replaced. -/
theorem claim_C5_first_occurrence_replacement_witness :
    replaceFirst "ab".data "cd".data "Z".data = "ab".data
    ∧ replaceFirst ("x".data ++ "ab".data ++ "ab".data) "ab".data "Z".data
      = "x".data ++ "Z".data ++ "ab".data :=
  ⟨claim_C5_first_occurrence_replacement.1 "ab".data "cd".data "Z".data
      (by decide) (by decide),
   claim_C5_first_occurrence_replacement.2.1 "x".data "ab".data "ab".data "Z".data
      (by decide) (by decide)⟩

theorem bindValues_getElem :
    ∀ (args : List (Str × Str)) (params : List Str) (i : Nat),
      (bindValues args params)[i]? =
        (args[i]?).map (fun ad =>
          (ad.1, if params.getD i [] ≠ [] then params.getD i [] else ad.2)) := by
  intro args
  induction args with
  | nil => intro params i; simp [bindValues]
  | cons ad rest ih =>
    intro params i
    obtain ⟨a, d⟩ := ad
    cases params with
    | nil =>
      cases i with
      | zero => simp [bindValues, List.getD]
      | succ i => simpa [bindValues, List.getD] using ih [] i
    | cons p ps =>
      cases i with
      | zero => simp [bindValues, List.getD]
      | succ i => simpa [bindValues, List.getD] using ih ps i

theorem parseFormal_no_colon (tok : Str)
    (h : tok.all (fun c => c ≠ ':') = true) : (parseFormal tok).2 = [] := by
  have htw : tok.takeWhile (fun c => c ≠ ':') = tok := by
    induction tok with
    | nil => rfl
    | cons c rest ih =>
      simp only [List.all_cons, Bool.and_eq_true] at h
      rw [List.takeWhile_cons, if_pos (by simpa using h.1)]
      exact congrArg (c :: ·) (ih h.2)
  rw [parseFormal]
  simp only [htw]
  rw [List.drop_eq_nil_of_le (by omega)]
  rfl

/-- The C1 counterexample: with `@mixin m $x: d { v: $x; }` invoked as
`@include m ,;` the actual-argument list is `[""]`, so the actual at index
0 is present; the claim predicts the bound value `""`, but the JavaScript
`params[i] || default` falls back to the default `d` for the falsy empty
string, so the run produces `v: d;` and `bindValues` disagrees with the
spec-worded `specBindValues` at this input. -/
theorem counterexample_C1_empty_actual :
    expandDoc ⟨false⟩ 20 []
      (nodes [.atrule "mixin".data "m $x: d".data 1
                (nodes [.decl "v".data "$x".data]),
              .atrule "include".data "m ,".data 2 .nil])
      = .ok (nodes [.decl "v".data "d".data])
    ∧ actualParams ",".data = [[]]
    ∧ bindValues [("x".data, "d".data)] [[]] = [("x".data, "d".data)]
    ∧ specBindValues [("x".data, "d".data)] [[]] = [("x".data, [])]
    ∧ ("d".data : Str) ≠ [] :=
  ⟨rfl, rfl, rfl, rfl, by decide⟩

/-- C1 (amended): actuals are bound positionally to the formal sequence —
for index i the bound value is `actuals[i]` if present and nonempty, else
the formal's declared default, else empty (a formal declared without a
default is stored with the empty default); in particular the claim's
worked example `@mixin m $a, $b: b, $c: c { v: $a $b $c; }` at
`@include m 1, 2;` expands to `v: 1 2 c;`. -/
theorem claim_C1_positional_binding :
    (∀ (args : List (Str × Str)) (params : List Str) (i : Nat),
      (bindValues args params)[i]? =
        (args[i]?).map (fun ad =>
          (ad.1, if params.getD i [] ≠ [] then params.getD i [] else ad.2)))
    ∧ (∀ tok : Str, tok.all (fun c => c ≠ ':') = true → (parseFormal tok).2 = [])
    ∧ expandDoc ⟨false⟩ 20 []
        (nodes [.atrule "mixin".data "m $a, $b: b, $c: c".data 1
                  (nodes [.decl "v".data "$a $b $c".data]),
                .atrule "include".data "m 1, 2".data 2 .nil])
        = .ok (nodes [.decl "v".data "1 2 c".data]) :=
  ⟨bindValues_getElem, parseFormal_no_colon, rfl⟩

/-- Witness for C1 (amended): the binding equation evaluated at the worked
example's formals and actuals, and the no-colon token `$a` parsed with an
empty default. -/
theorem claim_C1_positional_binding_witness :
    (bindValues [("a".data, []), ("b".data, "b".data), ("c".data, "c".data)]
        ["1".data, "2".data])[2]? =
      ((([("a".data, ([] : Str)), ("b".data, "b".data), ("c".data, "c".data)] :
          List (Str × Str))[2]?).map (fun ad =>
        (ad.1, if (["1".data, "2".data] : List Str).getD 2 [] ≠ []
               then (["1".data, "2".data] : List Str).getD 2 [] else ad.2)))
    ∧ (parseFormal "$a".data).2 = [] :=
  ⟨claim_C1_positional_binding.1
      [("a".data, []), ("b".data, "b".data), ("c".data, "c".data)]
      ["1".data, "2".data] 2,
   claim_C1_positional_binding.2.1 "$a".data (by decide)⟩

theorem bindValues_take :
    ∀ (args : List (Str × Str)) (params : List Str),
      bindValues args params = bindValues args (params.take args.length) := by
  intro args
  induction args with
  | nil => intro params; cases params <;> rfl
  | cons ad rest ih =>
    intro params
    obtain ⟨a, d⟩ := ad
    cases params with
    | nil => rfl
    | cons p ps => simpa [bindValues, List.take] using ih ps

/-- The C9 counterexample: `@mixin a $x { v: $x; }` declares one formal,
the invocation `@include a 1, single-arg 2;` supplies two actuals, and the
run aborts with `UnbalancedSingleArg` (raised while resolving the surplus
malformed `single-arg` token), contradicting the claim that no error is
raised for surplus actuals. -/
theorem counterexample_C9_surplus_error :
    expandDoc ⟨false⟩ 20 []
      (nodes [.atrule "mixin".data "a $x".data 1
                (nodes [.decl "v".data "$x".data]),
              .atrule "include".data "a 1, single-arg 2".data 7 .nil])
      = .error ⟨.unbalancedSingleArg, some 7,
          "Content of single-arg must be wrapped in brackets: single-arg 2".data⟩
    ∧ (actualParams "1, single-arg 2".data).length = 2
    ∧ ((commaSplit "$x".data).map parseFormal).length = 1 :=
  ⟨rfl, rfl, rfl⟩

/-- C9 (amended): parameter binding iterates only over the declared formal
list, so surplus actuals are never bound and do not reach substitution
(binding sees only the first `args.length` actuals); surplus tokens do
still undergo single-argument resolution, which can raise
`UnbalancedSingleArg`.  A surplus plain actual is silently ignored, as in
`@mixin a $x { v: $x; }` at `@include a 1, 2;` expanding to `v: 1;`. -/
theorem claim_C9_surplus_ignored_by_binding :
    (∀ (args : List (Str × Str)) (params : List Str),
      bindValues args params = bindValues args (params.take args.length))
    ∧ expandDoc ⟨false⟩ 20 []
        (nodes [.atrule "mixin".data "a $x".data 1
                  (nodes [.decl "v".data "$x".data]),
                .atrule "include".data "a 1, 2".data 2 .nil])
        = .ok (nodes [.decl "v".data "1".data]) :=
  ⟨bindValues_take, rfl⟩

/-- The C2 counterexample: the single-arguments map is built before the
registry check, so an invocation of an unregistered name whose actual
argument is a malformed `single-arg` token aborts with
`UnbalancedSingleArg` even though `silent` is set — contradicting the
claim that with `silent` every unknown invocation is removed with no
error. -/
theorem counterexample_C2_silent_still_errors :
    expandDoc ⟨true⟩ 8 []
      (nodes [.atrule "include".data "unknown single-arg 1".data 3 .nil])
      = .error ⟨.unbalancedSingleArg, some 3,
          "Content of single-arg must be wrapped in brackets: single-arg 1".data⟩
    ∧ lookupMixin [] "unknown".data = none :=
  ⟨rfl, rfl⟩

/-- C2 (amended): for an invocation whose parsed name is not in the
registry and whose actual arguments pass single-argument resolution, the
expansion fails with `UndefinedMacro` naming the invocation and carrying
its source position when `silent` is unset, and yields no output (the
invocation site is removed) when `silent` is set; a failing
single-argument resolution instead aborts with `UnbalancedSingleArg`
regardless of `silent` (see the counterexample). -/
theorem claim_C2_unknown_invocation (mixins : Registry) (opts : Opts)
    (atName : Str) (pos : Nat) (rp : Str) (ruleNodes : NodeList)
    (name ps : Str) (m : List (Str × Str))
    (hparse : parseMixin atName pos rp = .ok (name, ps))
    (hsam : buildSingleArgMap pos (actualParams ps) = .ok m)
    (hlookup : lookupMixin mixins name = none) :
    insertMixin mixins opts atName pos rp ruleNodes =
      (if opts.silent then .ok .nil
       else .error ⟨.undefinedMacro, some pos, "Undefined mixin ".data ++ name⟩) := by
  rw [insertMixin, hparse]
  simp only
  rw [hsam, hlookup]

/-- Witness for C2 (amended) at the unknown invocation `@include A` with
`silent` unset (the run fails with `UndefinedMacro` at the invocation's
position) and with `silent` set (the invocation produces no output). -/
theorem claim_C2_unknown_invocation_witness :
    insertMixin [] ⟨false⟩ "include".data 1 "A".data .nil
      = .error ⟨.undefinedMacro, some 1, "Undefined mixin A".data⟩
    ∧ insertMixin [] ⟨true⟩ "include".data 1 "A".data .nil = .ok .nil :=
  ⟨claim_C2_unknown_invocation [] ⟨false⟩ "include".data 1 "A".data .nil
      "A".data [] [] rfl rfl rfl,
   claim_C2_unknown_invocation [] ⟨true⟩ "include".data 1 "A".data .nil
      "A".data [] [] rfl rfl rfl⟩

theorem processNodes_ok_noInvocation (opts : Opts) :
    ∀ (fuel : Nat) (mixins : Registry) (ns : NodeList) (r : Registry × NodeList),
      processNodes opts fuel mixins ns = .ok r → r.2.noInvocation = true := by
  intro fuel
  induction fuel with
  | zero =>
    intro mixins ns r h
    simp [processNodes] at h
  | succ fuel ih =>
    intro mixins ns r h
    cases ns with
    | nil =>
      simp only [processNodes] at h
      have hr := Except.ok.inj h
      rw [← hr]
      rfl
    | cons n rest =>
      cases n with
      | decl p v =>
        simp only [processNodes] at h
        cases hrec : processNodes opts fuel mixins rest with
        | error e => rw [hrec] at h; exact Except.noConfusion h
        | ok mr =>
          rw [hrec] at h
          obtain ⟨m2, r2⟩ := mr
          have hr := Except.ok.inj h
          rw [← hr]
          simp only [NodeList.noInvocation, Node.noInvocation, Bool.true_and]
          exact ih mixins rest (m2, r2) hrec
      | rule s ch =>
        simp only [processNodes] at h
        cases hch : processNodes opts fuel mixins ch with
        | error e => rw [hch] at h; exact Except.noConfusion h
        | ok mc =>
          rw [hch] at h
          obtain ⟨m2, ch2⟩ := mc
          dsimp only at h
          cases hrest : processNodes opts fuel m2 rest with
          | error e => rw [hrest] at h; exact Except.noConfusion h
          | ok mr =>
            rw [hrest] at h
            obtain ⟨m3, r2⟩ := mr
            have hr := Except.ok.inj h
            rw [← hr]
            simp only [NodeList.noInvocation, Node.noInvocation, Bool.and_eq_true]
            exact ⟨ih mixins ch (m2, ch2) hch, ih m2 rest (m3, r2) hrest⟩
      | atrule aname aparams pos ch =>
        simp only [processNodes] at h
        by_cases hm : aname = "mixin".data
        · rw [if_pos hm] at h
          cases hadd : addMixin mixins aname pos aparams ch with
          | error e => rw [hadd] at h; exact Except.noConfusion h
          | ok m2 =>
            rw [hadd] at h
            exact ih m2 rest r h
        · rw [if_neg hm] at h
          by_cases hi : aname = "include".data ∨ aname = "add-mixin".data
          · rw [if_pos hi] at h
            cases hins : insertMixin mixins opts aname pos aparams ch with
            | error e => rw [hins] at h; exact Except.noConfusion h
            | ok inserted =>
              rw [hins] at h
              exact ih mixins (inserted.append rest) r h
          · rw [if_neg hi] at h
            cases hch : processNodes opts fuel mixins ch with
            | error e => rw [hch] at h; exact Except.noConfusion h
            | ok mc =>
              rw [hch] at h
              obtain ⟨m2, ch2⟩ := mc
              dsimp only at h
              cases hrest : processNodes opts fuel m2 rest with
              | error e => rw [hrest] at h; exact Except.noConfusion h
              | ok mr =>
                rw [hrest] at h
                obtain ⟨m3, r2⟩ := mr
                have hr := Except.ok.inj h
                rw [← hr]
                push_neg at hi
                simp only [NodeList.noInvocation, Node.noInvocation,
                  Bool.and_eq_true, Bool.not_eq_true', Bool.or_eq_false_iff,
                  decide_eq_false_iff_not]
                exact ⟨⟨⟨hi.1, hi.2⟩, ih mixins ch (m2, ch2) hch⟩,
                  ih m2 rest (m3, r2) hrest⟩

/-- C3: whenever a processing run succeeds, no invocation site
(`@include` / `@add-mixin` at-rule) remains anywhere in the produced tree:
inserted nodes are themselves scanned and expanded before the walk ends;
in particular the chain `@mixin c { x: y; } @mixin b { @include c; }
@mixin a { @include b; } @include a;` flattens to `x: y;`, the literal
output of the innermost macro. -/
theorem claim_C3_recursive_resolution :
    (∀ (opts : Opts) (fuel : Nat) (mixins : Registry) (ns : NodeList)
       (r : Registry × NodeList),
      processNodes opts fuel mixins ns = .ok r → r.2.noInvocation = true)
    ∧ expandDoc ⟨false⟩ 30 []
        (nodes [.atrule "mixin".data "c".data 1 (nodes [.decl "x".data "y".data]),
                .atrule "mixin".data "b".data 2
                  (nodes [.atrule "include".data "c".data 3 .nil]),
                .atrule "mixin".data "a".data 4
                  (nodes [.atrule "include".data "b".data 5 .nil]),
                .atrule "include".data "a".data 6 .nil])
        = .ok (nodes [.decl "x".data "y".data]) :=
  ⟨processNodes_ok_noInvocation, rfl⟩

/-- Witness for C3 at a concrete successful run: the output of expanding
`@mixin a { a: 1 } @include a;` contains no invocation sites. -/
theorem claim_C3_recursive_resolution_witness :
    NodeList.noInvocation (nodes [.decl "a".data "1".data]) = true :=
  claim_C3_recursive_resolution.1 ⟨false⟩ 10 []
    (nodes [.atrule "mixin".data "a".data 1 (nodes [.decl "a".data "1".data]),
            .atrule "include".data "a".data 2 .nil])
    ([("a".data, .css [] false (nodes [.decl "a".data "1".data]))],
      nodes [.decl "a".data "1".data]) rfl

theorem parseMixin_err (atName : Str) (pos : Nat) (rp : Str) (e : MixinError)
    (h : parseMixin atName pos rp = .error e) :
    e = mixinHeaderError atName pos rp := by
  rw [parseMixin] at h
  split at h
  · exact (Except.error.inj h).symm
  · split at h
    · exact (Except.error.inj h).symm
    · exact Except.noConfusion h

theorem mixinHeaderError_shape (atName : Str) (pos : Nat) (rp : Str) :
    (mixinHeaderError atName pos rp).kind = .malformedDefinition
    ∧ (mixinHeaderError atName pos rp).pos = some pos
    ∧ (mixinHeaderError atName pos rp).msg ≠ [] :=
  ⟨rfl, rfl, List.cons_ne_nil _ _⟩

theorem resolveSAV_err (pos : Nat) (p : Str) (e : MixinError)
    (h : resolveSingleArgumentValue pos p = .error e) :
    e.kind = .unbalancedSingleArg ∧ e.pos = some pos ∧ e.msg ≠ [] := by
  rw [resolveSingleArgumentValue] at h
  split at h
  · exact Except.noConfusion h
  · have he := (Except.error.inj h).symm
    subst he
    exact ⟨rfl, rfl, List.cons_ne_nil _ _⟩

theorem resolvePairs_err (pos : Nat) :
    ∀ (l : List Str) (e : MixinError), resolvePairs pos l = .error e →
      e.kind = .unbalancedSingleArg ∧ e.pos = some pos ∧ e.msg ≠ [] := by
  intro l
  induction l with
  | nil => intro e h; exact Except.noConfusion h
  | cons p rest ih =>
    intro e h
    rw [resolvePairs] at h
    cases hres : resolveSingleArgumentValue pos p with
    | error e2 =>
      rw [hres] at h
      exact (Except.error.inj h) ▸ resolveSAV_err pos p e2 hres
    | ok v =>
      rw [hres] at h
      cases hrest : resolvePairs pos rest with
      | error e2 =>
        rw [hrest] at h
        exact (Except.error.inj h) ▸ ih e2 hrest
      | ok r => rw [hrest] at h; exact Except.noConfusion h

theorem buildSingleArgMap_err (pos : Nat) (params : List Str) (e : MixinError)
    (h : buildSingleArgMap pos params = .error e) :
    e.kind = .unbalancedSingleArg ∧ e.pos = some pos ∧ e.msg ≠ [] := by
  rw [buildSingleArgMap] at h
  cases hres : resolvePairs pos
      (params.filter (fun q => ("single-arg".data).isPrefixOf q)) with
  | error e2 =>
    rw [hres] at h
    exact (Except.error.inj h) ▸ resolvePairs_err pos _ e2 hres
  | ok pairs => rw [hres] at h; exact Except.noConfusion h

theorem addMixin_err (mixins : Registry) (atName : Str) (pos : Nat)
    (rp : Str) (body : NodeList) (e : MixinError)
    (h : addMixin mixins atName pos rp body = .error e) :
    e = mixinHeaderError atName pos rp := by
  rw [addMixin] at h
  cases hp : parseMixin atName pos rp with
  | error e2 =>
    rw [hp] at h
    exact (Except.error.inj h) ▸ parseMixin_err atName pos rp e2 hp
  | ok np => rw [hp] at h; exact Except.noConfusion h

theorem insertMixin_err (mixins : Registry) (opts : Opts) (atName : Str)
    (pos : Nat) (rp : Str) (ch : NodeList) (e : MixinError)
    (h : insertMixin mixins opts atName pos rp ch = .error e) :
    e.msg ≠ [] ∧ (e.kind ≠ .invalidMacroType → e.pos = some pos) := by
  rw [insertMixin] at h
  cases hp : parseMixin atName pos rp with
  | error e2 =>
    rw [hp] at h
    have he : e = e2 := (Except.error.inj h).symm
    subst he
    have hme := parseMixin_err atName pos rp e hp
    subst hme
    exact ⟨List.cons_ne_nil _ _, fun _ => rfl⟩
  | ok np =>
    rw [hp] at h
    dsimp only at h
    cases hs : buildSingleArgMap pos (actualParams np.2) with
    | error e2 =>
      rw [hs] at h
      have he : e = e2 := (Except.error.inj h).symm
      subst he
      have := buildSingleArgMap_err pos (actualParams np.2) e hs
      exact ⟨this.2.2, fun _ => this.2.1⟩
    | ok sam =>
      rw [hs] at h
      dsimp only at h
      cases hl : lookupMixin mixins np.1 with
      | none =>
        rw [hl] at h
        cases hsil : opts.silent with
        | true => rw [hsil] at h; simp at h
        | false =>
          rw [hsil] at h
          simp only [Bool.false_eq_true, if_false] at h
          have he := (Except.error.inj h).symm
          subst he
          exact ⟨List.cons_ne_nil _ _, fun _ => rfl⟩
      | some d =>
        rw [hl] at h
        cases d with
        | css args content body => exact Except.noConfusion h
        | foreign typeName =>
          have he := (Except.error.inj h).symm
          subst he
          exact ⟨List.cons_ne_nil _ _, fun hne => absurd rfl hne⟩

theorem processNodes_err_shape (opts : Opts) :
    ∀ (fuel : Nat) (mixins : Registry) (ns : NodeList) (e : MixinError),
      processNodes opts fuel mixins ns = .error e →
      e.msg ≠ []
      ∧ ((e.kind = .malformedDefinition ∨ e.kind = .undefinedMacro
          ∨ e.kind = .unbalancedSingleArg) → e.pos ≠ none) := by
  intro fuel
  induction fuel with
  | zero =>
    intro mixins ns e h
    simp only [processNodes] at h
    have he := (Except.error.inj h).symm
    subst he
    refine ⟨List.cons_ne_nil _ _, ?_⟩
    rintro (hk | hk | hk) <;> exact ErrKind.noConfusion hk
  | succ fuel ih =>
    intro mixins ns e h
    cases ns with
    | nil => simp only [processNodes] at h; exact Except.noConfusion h
    | cons n rest =>
      cases n with
      | decl p v =>
        simp only [processNodes] at h
        cases hrec : processNodes opts fuel mixins rest with
        | error e2 =>
          rw [hrec] at h
          exact (Except.error.inj h) ▸ ih mixins rest e2 hrec
        | ok mr =>
          rw [hrec] at h
          obtain ⟨m2, r2⟩ := mr
          exact Except.noConfusion h
      | rule s ch =>
        simp only [processNodes] at h
        cases hch : processNodes opts fuel mixins ch with
        | error e2 =>
          rw [hch] at h
          exact (Except.error.inj h) ▸ ih mixins ch e2 hch
        | ok mc =>
          rw [hch] at h
          obtain ⟨m2, ch2⟩ := mc
          dsimp only at h
          cases hrest : processNodes opts fuel m2 rest with
          | error e2 =>
            rw [hrest] at h
            exact (Except.error.inj h) ▸ ih m2 rest e2 hrest
          | ok mr =>
            rw [hrest] at h
            obtain ⟨m3, r2⟩ := mr
            exact Except.noConfusion h
      | atrule aname aparams pos ch =>
        simp only [processNodes] at h
        by_cases hm : aname = "mixin".data
        · rw [if_pos hm] at h
          cases hadd : addMixin mixins aname pos aparams ch with
          | error e2 =>
            rw [hadd] at h
            have he : e = e2 := (Except.error.inj h).symm
            subst he
            have hme := addMixin_err mixins aname pos aparams ch e hadd
            subst hme
            exact ⟨List.cons_ne_nil _ _, fun _ => by simp [mixinHeaderError]⟩
          | ok m2 =>
            rw [hadd] at h
            exact ih m2 rest e h
        · rw [if_neg hm] at h
          by_cases hi : aname = "include".data ∨ aname = "add-mixin".data
          · rw [if_pos hi] at h
            cases hins : insertMixin mixins opts aname pos aparams ch with
            | error e2 =>
              rw [hins] at h
              have he : e = e2 := (Except.error.inj h).symm
              subst he
              have hie := insertMixin_err mixins opts aname pos aparams ch e hins
              refine ⟨hie.1, fun hk => ?_⟩
              have : e.kind ≠ .invalidMacroType := by
                rcases hk with hk | hk | hk <;> simp [hk]
              rw [hie.2 this]
              simp
            | ok inserted =>
              rw [hins] at h
              exact ih mixins (inserted.append rest) e h
          · rw [if_neg hi] at h
            cases hch : processNodes opts fuel mixins ch with
            | error e2 =>
              rw [hch] at h
              exact (Except.error.inj h) ▸ ih mixins ch e2 hch
            | ok mc =>
              rw [hch] at h
              obtain ⟨m2, ch2⟩ := mc
              dsimp only at h
              cases hrest : processNodes opts fuel m2 rest with
              | error e2 =>
                rw [hrest] at h
                exact (Except.error.inj h) ▸ ih m2 rest e2 hrest
              | ok mr =>
                rw [hrest] at h
                obtain ⟨m3, r2⟩ := mr
                exact Except.noConfusion h

/-- The C8 counterexample: a registered value of a foreign type (a number)
makes the run abort with the `InvalidMacroType` error, which is built with
a bare `new Error(...)` and carries no source position — contradicting the
claim that every fatal error carries the offending node's position.  The
message matches the repository's own test
(`Wrong a mixin type number`, with no position prefix). -/
theorem counterexample_C8_invalid_type_no_position :
    expandDoc ⟨false⟩ 5 [("a".data, .foreign "number".data)]
      (nodes [.atrule "include".data "a".data 7 .nil])
      = .error ⟨.invalidMacroType, none, "Wrong a mixin type number".data⟩
    ∧ (⟨.invalidMacroType, none, "Wrong a mixin type number".data⟩ :
        MixinError).pos = none :=
  ⟨rfl, rfl⟩

/-- C8 (amended): every error a run aborts with carries a nonempty
human-readable message, and the `MalformedDefinition`, `UndefinedMacro`
and `UnbalancedSingleArg` errors carry the offending node's source
position; `InvalidMacroType` is run-aborting with a message but no
position (see the counterexample). -/
theorem claim_C8_fatal_errors (opts : Opts) (fuel : Nat) (mixins : Registry)
    (ns : NodeList) (e : MixinError)
    (h : processNodes opts fuel mixins ns = .error e) :
    e.msg ≠ []
    ∧ ((e.kind = .malformedDefinition ∨ e.kind = .undefinedMacro
        ∨ e.kind = .unbalancedSingleArg) → e.pos ≠ none) :=
  processNodes_err_shape opts fuel mixins ns e h

/-- Witness for C8 at the concrete failing run `@include A` (unknown
mixin): the error message is nonempty and the error carries position 1. -/
theorem claim_C8_fatal_errors_witness :
    ("Undefined mixin A".data : Str) ≠ []
    ∧ (((⟨.undefinedMacro, some 1, "Undefined mixin A".data⟩ : MixinError).kind
          = ErrKind.malformedDefinition
        ∨ (⟨.undefinedMacro, some 1, "Undefined mixin A".data⟩ : MixinError).kind
          = ErrKind.undefinedMacro
        ∨ (⟨.undefinedMacro, some 1, "Undefined mixin A".data⟩ : MixinError).kind
          = ErrKind.unbalancedSingleArg) →
      (⟨.undefinedMacro, some 1, "Undefined mixin A".data⟩ : MixinError).pos ≠ none) :=
  claim_C8_fatal_errors ⟨false⟩ 5 []
    (nodes [.atrule "include".data "A".data 1 .nil])
    ⟨.undefinedMacro, some 1, "Undefined mixin A".data⟩ rfl

end PostcssMixins
